import Mathlib

/-
Verification of the geometric distance-metrics engine of
gps-path-average-distance (src/main.rs).

The tool projects geodetic GPS tracks into a local planar frame (kilometers),
joins multi-segment tracks into polylines, and reports four distance metrics
per candidate track: raw pointwise average distance, simplified pointwise
average distance, discrete Frechet distance and discrete Hausdorff distance,
all scaled to meters in the output record.

Floating-point (f64) arithmetic of the source is modelled by exact real
arithmetic; the two places where IEEE-754 special values are semantically
significant are modelled explicitly: the INFINITY returned for a closest-point
search on an empty reference polyline (distances live in extended nonnegative
reals) and the NaN produced by the 0/0 average of an empty query polyline
(averages live in an Option, none standing for NaN).

Geometry that the source pulls in from library crates (geo's ClosestPoint,
Simplify, FrechetDistance and HausdorffDistance, flat_projection's
FlatProjection) is not part of this repository's sources; those definitions
are modelled from the spec and marked as such.
-/

noncomputable section

namespace GPS

/-- A point with two real coordinates.  Used both for geodetic points
(x = longitude, y = latitude, in degrees as in the gpx crate) and for planar
points (x, y in kilometers relative to a projection anchor). -/
structure Pt where
  x : ℝ
  y : ℝ

/-- The origin point, used as the default value when reading from lists. -/
def origin : Pt := ⟨0, 0⟩

/-- Squared Euclidean distance between two points. -/
def dist_sq (p q : Pt) : ℝ := (p.x - q.x) ^ 2 + (p.y - q.y) ^ 2

/-- Euclidean distance between two points, as computed by
`p1.euclidean_distance(&p2)` in the source. -/
def euclidean_distance (p q : Pt) : ℝ := Real.sqrt (dist_sq p q)

/-- Modelled from the spec: the closest point to `p` on the segment from `a`
to `b` (geo's closest-point primitive, not part of this repository): the
perpendicular foot of `p` on the segment, clamped to the segment's extent; a
zero-length segment yields its endpoint. -/
def closestOnSegment (a b p : Pt) : Pt :=
  if dist_sq a b = 0 then a
  else
    let t := ((p.x - a.x) * (b.x - a.x) + (p.y - a.y) * (b.y - a.y)) / dist_sq a b
    let tc := max 0 (min 1 t)
    ⟨a.x + tc * (b.x - a.x), a.y + tc * (b.y - a.y)⟩

/-- Modelled from the spec: the closest point to `p` on a polyline (geo's
`closest_point` on a LineString, not part of this repository).  The empty
polyline has no closest point (geo's `Closest::Indeterminate`); a single
vertex is its own closest point; otherwise the minimizer over all consecutive
segments is kept. -/
def closestPointOnPolyline (p : Pt) : List Pt → Option Pt
  | [] => none
  | [a] => some a
  | a :: b :: rest =>
    let c := closestOnSegment a b p
    match closestPointOnPolyline p (b :: rest) with
    | none => some c
    | some c2 => some (if euclidean_distance p c2 < euclidean_distance p c then c2 else c)

/-- The per-point distance used by `calculate_average_distance` in the source:
the Euclidean distance from `p` to its closest point on the reference
polyline, and INFINITY when the search is indeterminate (empty reference
polyline), exactly as the `match closest_point` in the source maps
`Closest::Indeterminate` to `f64::INFINITY`. -/
def closestDistance (p : Pt) (ref : List Pt) : ENNReal :=
  match closestPointOnPolyline p ref with
  | none => ⊤
  | some c => ENNReal.ofReal (euclidean_distance p c)

/-- Embedding of the `calculate_average_distance` closure of the source: walk
every point of the current polyline, add its distance to the closest point on
the reference polyline to the running total and bump the point count.  The
mutable accumulators of the source become an explicit state pair. -/
def calculate_average_distance (current ref : List Pt) (acc : ENNReal × ℕ) :
    ENNReal × ℕ :=
  current.foldl (fun st p => (st.1 + closestDistance p ref, st.2 + 1)) acc

/-- A local flat projection, determined by its anchor point
(`FlatProjection::new(lon, lat)` in the source). -/
structure Projection where
  lon0 : ℝ
  lat0 : ℝ

/-- Kilometers per degree of latitude of the local flat approximation. -/
def kmPerDegree : ℝ := 111.3194908

/-- Modelled from the spec: the kilometers-per-degree-of-longitude scale
factor of the equirectangular local approximation at the anchor latitude
(the flat_projection crate is not part of this repository).  It degenerates
to 0 at the poles, the boundary of the projection's valid range. -/
def kx (pr : Projection) : ℝ := kmPerDegree * Real.cos (pr.lat0 * Real.pi / 180)

/-- Modelled from the spec: the kilometers-per-degree-of-latitude scale factor
of the equirectangular local approximation. -/
def ky (_pr : Projection) : ℝ := kmPerDegree

/-- Modelled from the spec: forward projection of a geodetic point into the
planar kilometer frame anchored at the projection's anchor. -/
def project (pr : Projection) (p : Pt) : Pt :=
  ⟨(p.x - pr.lon0) * kx pr, (p.y - pr.lat0) * ky pr⟩

/-- Modelled from the spec: inverse projection from the planar kilometer frame
back to geodetic coordinates. -/
def unproject (pr : Projection) (p : Pt) : Pt :=
  ⟨p.x / kx pr + pr.lon0, p.y / ky pr + pr.lat0⟩

/-- A track segment: an ordered sequence of geodetic points (the gpx crate's
TrackSegment, of which only the points are relevant to the core). -/
structure TrackSegment where
  points : List Pt

/-- A track: an optional name and an ordered sequence of segments. -/
structure Track where
  name : Option String
  segments : List TrackSegment

/-- A parsed GPX file: its tracks and its free-standing waypoints. -/
structure Gpx where
  tracks : List Track
  waypoints : List Pt

/-- The concatenation of the points of a list of segments, in original order. -/
def concatPoints : List TrackSegment → List Pt
  | [] => []
  | s :: rest => s.points ++ concatPoints rest

/-- Embedding of `join_and_project_segments` of the source: iterate the
segments in order, extending an accumulated point list with each segment's
points projected into the flat frame, and return the joined polyline. -/
def join_and_project_segments (segments : List TrackSegment) (pr : Projection) :
    List Pt :=
  segments.foldl (fun acc s => acc ++ s.points.map (fun p => project pr p)) []

/-- Embedding of `unproject_linestring` of the source: map every point of a
planar polyline back to geodetic coordinates. -/
def unproject_linestring (linestring : List Pt) (pr : Projection) : List Pt :=
  linestring.map (fun p => unproject pr p)

/-- Embedding of `calculate_total_length` of the source: the sum of the
Euclidean distances between consecutive points of a polyline (kilometers). -/
def calculate_total_length (linestring : List Pt) : ℝ :=
  ((linestring.zip linestring.tail).map
    (fun pq => euclidean_distance pq.1 pq.2)).sum

/-- Embedding of the `total_points` accumulation of the source: the number of
points of the reference track, summed segment by segment as an f64. -/
def total_points (t : Track) : ℝ :=
  (t.segments.map (fun s => (s.points.length : ℝ))).sum

/-- Embedding of the `sum_positions` fold of the source: componentwise sum of
all points of all segments of the reference track, starting from (0, 0). -/
def sum_positions (t : Track) : Pt :=
  (concatPoints t.segments).foldl (fun acc p => ⟨acc.x + p.x, acc.y + p.y⟩) ⟨0, 0⟩

/-- Embedding of the `average_position` of the source: the componentwise
arithmetic mean of all points of the reference track. -/
def average_position (t : Track) : Pt :=
  ⟨(sum_positions t).x / total_points t, (sum_positions t).y / total_points t⟩

/-- The projector constructed in the per-track loop of the source:
`FlatProjection::new(average_position.x(), average_position.y())`.  It depends
only on the reference track, so its value is the same in every iteration of
the loop. -/
def projectorOf (referenceTrack : Track) : Projection :=
  ⟨(average_position referenceTrack).x, (average_position referenceTrack).y⟩

/-- The perpendicular deviation used by the simplifier: the distance from a
vertex to the chord (segment) connecting the two endpoints of the span. -/
def perp_distance (p a z : Pt) : ℝ := euclidean_distance p (closestOnSegment a z p)

/-- Modelled from the spec: locate the vertex of a nonempty interior with the
maximum perpendicular distance to the chord from `a` to `z`, returning the
interior split (vertices before it, the vertex, vertices after it).  The
subtype carries the fact that the three parts reassemble the interior. -/
def maxSplit (a z : Pt) : (mid : List Pt) → mid ≠ [] →
    { t : List Pt × Pt × List Pt // t.1 ++ t.2.1 :: t.2.2 = mid }
  | [c], _ => ⟨([], c, []), rfl⟩
  | c :: c2 :: cs, _ =>
    let s := maxSplit a z (c2 :: cs) (List.cons_ne_nil c2 cs)
    if perp_distance c a z < perp_distance s.val.2.1 a z then
      ⟨(c :: s.val.1, s.val.2.1, s.val.2.2), by
        have hp := s.property
        simpa using hp⟩
    else ⟨([], c, c2 :: cs), rfl⟩

/-- Modelled from the spec: the recursive core of Ramer-Douglas-Peucker (geo's
Simplify, not part of this repository).  Given the endpoints `a` and `z` and
the interior vertices between them, return the simplified vertices from `a`
inclusive up to `z` exclusive: if the interior vertex of maximum perpendicular
distance to the chord exceeds epsilon, keep it and recurse on both halves,
otherwise collapse the whole span to its endpoints. -/
def rdpAux : (eps : ℝ) → (a : Pt) → (mid : List Pt) → (z : Pt) → List Pt
  | _, a, [], _ => [a]
  | eps, a, c :: cs, z =>
    let s := maxSplit a z (c :: cs) (List.cons_ne_nil c cs)
    if eps < perp_distance s.val.2.1 a z then
      rdpAux eps a s.val.1 s.val.2.1 ++ rdpAux eps s.val.2.1 s.val.2.2 z
    else [a]
termination_by _ _ mid _ => mid.length
decreasing_by
  · have hp := congrArg List.length
      (maxSplit a z (c :: cs) (List.cons_ne_nil c cs)).property
    simp only [List.length_append, List.length_cons] at hp
    simp only [List.length_cons]
    omega
  · have hp := congrArg List.length
      (maxSplit a z (c :: cs) (List.cons_ne_nil c cs)).property
    simp only [List.length_append, List.length_cons] at hp
    simp only [List.length_cons]
    omega

/-- Modelled from the spec: Ramer-Douglas-Peucker simplification of a polyline
with tolerance `eps` (the `simplify` call of the source; geo's Simplify is not
part of this repository).  Polylines with fewer than three vertices are
returned unchanged; otherwise the recursion runs between the first and last
vertices. -/
def rdp (eps : ℝ) : List Pt → List Pt
  | [] => []
  | [a] => [a]
  | a :: b :: rest =>
    rdpAux eps a ((b :: rest).dropLast) ((b :: rest).getLast (List.cons_ne_nil b rest)) ++
      [(b :: rest).getLast (List.cons_ne_nil b rest)]

/-- Modelled from the spec: the minimum distance from a point to the vertices
of a polyline (the inner minimum of the discrete Hausdorff distance). -/
def minDistTo (p : Pt) : List Pt → ℝ
  | [] => 0
  | [b] => euclidean_distance p b
  | b :: b2 :: rest => min (euclidean_distance p b) (minDistTo p (b2 :: rest))

/-- Modelled from the spec: the directed discrete Hausdorff distance, the
maximum over the first polyline's vertices of the minimum distance to the
second polyline's vertices. -/
def directed_hausdorff : List Pt → List Pt → ℝ
  | [], _ => 0
  | [a], B => minDistTo a B
  | a :: a2 :: rest, B => max (minDistTo a B) (directed_hausdorff (a2 :: rest) B)

/-- Modelled from the spec: the discrete Hausdorff distance between two
polylines (geo's HausdorffDistance, not part of this repository): the greater
of the two directed distances. -/
def hausdorff_distance (A B : List Pt) : ℝ :=
  max (directed_hausdorff A B) (directed_hausdorff B A)

/-- Modelled from the spec: the coupling measure of the discrete Frechet
distance via the standard dynamic-programming recurrence (geo's
FrechetDistance, not part of this repository): the measure at (i, j) is the
max of the vertex distance at (i, j) and the minimum of the measures at
(i-1, j), (i, j-1) and (i-1, j-1); the base case (0, 0) is the distance
between the first vertices. -/
def frechetAux (A B : List Pt) : ℕ → ℕ → ℝ
  | 0, 0 => euclidean_distance (A.getD 0 origin) (B.getD 0 origin)
  | i + 1, 0 =>
    max (euclidean_distance (A.getD (i + 1) origin) (B.getD 0 origin))
      (frechetAux A B i 0)
  | 0, j + 1 =>
    max (euclidean_distance (A.getD 0 origin) (B.getD (j + 1) origin))
      (frechetAux A B 0 j)
  | i + 1, j + 1 =>
    max (euclidean_distance (A.getD (i + 1) origin) (B.getD (j + 1) origin))
      (min (frechetAux A B i (j + 1)) (min (frechetAux A B (i + 1) j) (frechetAux A B i j)))
termination_by i j => i + j

/-- Modelled from the spec: the discrete Frechet distance between two
polylines: the coupling measure at the last indices of both vertex
sequences. -/
def frechet_distance (A B : List Pt) : ℝ :=
  frechetAux A B (A.length - 1) (B.length - 1)

/-- IEEE-754 semantics of the division `total_distance / total_points as f64`
in the source, over extended nonnegative reals: 0/0 is NaN (modelled as none),
a nonzero total divided by zero points is infinite, and otherwise the ordinary
quotient. -/
def f64_div (total : ENNReal) (points : ℕ) : Option ENNReal :=
  if points = 0 then (if total = 0 then none else some ⊤)
  else some (total / (points : ENNReal))

/-- The per-candidate-track output record assembled by the source.  Lengths
and set distances are plain reals (meters); the two averages are extended
nonnegative reals (INFINITY propagates), with none standing for the NaN of an
empty query polyline. -/
structure ComparisonResult where
  track_index : ℕ
  track_name : String
  current_track_length_m : ℝ
  reference_track_length_m : ℝ
  average_distance_m : Option ENNReal
  simplified_average_distance_m : Option ENNReal
  frechet_distance_m : ℝ
  hausdorff_distance_m : ℝ

/-- Embedding of one iteration of the per-track loop of `main`: construct the
projector from the reference track's average position, join and project both
tracks, compute lengths, Frechet and Hausdorff distances, simplify the current
polyline with epsilon converted from meters to kilometers, accumulate the raw
and simplified average distances, and assemble the output record with every
kilometer value scaled to meters. -/
def processTrack (referenceTrack : Track) (simplify_epsilon : ℝ) (track_index : ℕ)
    (track : Track) : ComparisonResult :=
  let projector := projectorOf referenceTrack
  let joinedCurrent := join_and_project_segments track.segments projector
  let joinedReference := join_and_project_segments referenceTrack.segments projector
  let currentLength := calculate_total_length joinedCurrent
  let referenceLength := calculate_total_length joinedReference
  let frechet := frechet_distance joinedCurrent joinedReference
  let hausdorff := hausdorff_distance joinedCurrent joinedReference
  let simplified := rdp (simplify_epsilon / 1000) joinedCurrent
  let avgPair := calculate_average_distance joinedCurrent joinedReference (0, 0)
  let avgPairSimplified := calculate_average_distance simplified joinedReference (0, 0)
  { track_index := track_index + 1
    track_name := track.name.getD "-- Unnamed --"
    current_track_length_m := currentLength * 1000
    reference_track_length_m := referenceLength * 1000
    average_distance_m := (f64_div avgPair.1 avgPair.2).map (fun d => d * 1000)
    simplified_average_distance_m :=
      (f64_div avgPairSimplified.1 avgPairSimplified.2).map (fun d => d * 1000)
    frechet_distance_m := frechet * 1000
    hausdorff_distance_m := hausdorff * 1000 }

/-- The fatal input errors of the run; `EmptyReference` models the
`process::exit(1)` taken when the reference file has neither tracks nor
waypoints. -/
inductive RunError where
  | EmptyReference
deriving DecidableEq

/-- Embedding of the reference-track resolution of `main`: use the first track
of the reference file if one exists, otherwise synthesize a default track with
a single segment holding all waypoints in file order, otherwise fail. -/
def resolveReference (g : Gpx) : Except RunError Track :=
  match g.tracks with
  | t :: _ => Except.ok t
  | [] =>
    match g.waypoints with
    | [] => Except.error RunError.EmptyReference
    | w :: ws => Except.ok { name := none, segments := [{ points := w :: ws }] }

/-- Embedding of the orchestration of `main`: resolve the reference track (a
resolution failure aborts the run with a nonzero exit code before any
per-track output), then process every track of every candidate file in order,
producing one result record per candidate track. -/
def runMain (referenceGpx : Gpx) (trackGpxs : List Gpx) (simplify_epsilon : ℝ) :
    Except RunError (List ComparisonResult) :=
  match resolveReference referenceGpx with
  | Except.error e => Except.error e
  | Except.ok referenceTrack =>
    Except.ok (trackGpxs.flatMap (fun g =>
      (g.tracks.enum.map (fun ti => processTrack referenceTrack simplify_epsilon ti.1 ti.2))))

/-- The joined, projected candidate polyline of a comparison (kilometers). -/
def joinedCurrent (referenceTrack track : Track) : List Pt :=
  join_and_project_segments track.segments (projectorOf referenceTrack)

/-- The joined, projected reference polyline of a comparison (kilometers). -/
def joinedReference (referenceTrack : Track) : List Pt :=
  join_and_project_segments referenceTrack.segments (projectorOf referenceTrack)

/-- The distance from a vertex to its closest point on a nonempty reference
polyline, stated through the closest point itself (the quantity the spec's
arithmetic mean ranges over). -/
def closestDistOn (ref : List Pt) (p : Pt) : ENNReal :=
  ENNReal.ofReal (euclidean_distance p ((closestPointOnPolyline p ref).getD origin))

/-- The arithmetic mean, over the vertices of a query polyline, of the
distance from each vertex to its closest point on a reference polyline. -/
def meanClosestDistance (query ref : List Pt) : ENNReal :=
  ((query.map (closestDistOn ref)).sum) / (query.length : ENNReal)

/-- Reference track fixture: one segment with two points. -/
def refW : Track := { name := none, segments := [{ points := [⟨0, 0⟩, ⟨1, 0⟩] }] }

/-- Candidate track fixture: one segment with a single point. -/
def trW : Track := { name := none, segments := [{ points := [⟨0, 1⟩] }] }

/-- Reference track fixture with no points at all. -/
def refEmptyW : Track := { name := none, segments := [] }

/-- Candidate track fixture with no points at all. -/
def trEmptyW : Track := { name := none, segments := [] }

/-- Reference GPX fixture with one two-point track. -/
def grefW : Gpx := { tracks := [refW], waypoints := [] }

/-- Candidate GPX fixture whose only track has no points. -/
def gcandEmptyW : Gpx := { tracks := [trEmptyW], waypoints := [] }

/-- GPX fixture with no tracks but one waypoint. -/
def gwayW : Gpx := { tracks := [], waypoints := [⟨3, 4⟩] }

/-- GPX fixture with no tracks and no waypoints. -/
def gemptyW : Gpx := { tracks := [], waypoints := [] }

/-- Segment fixture with five points. -/
def s5W : TrackSegment := ⟨[⟨0, 0⟩, ⟨1, 0⟩, ⟨2, 0⟩, ⟨3, 0⟩, ⟨4, 0⟩]⟩

/-- Segment fixture with seven points. -/
def s7W : TrackSegment := ⟨[⟨0, 1⟩, ⟨1, 1⟩, ⟨2, 1⟩, ⟨3, 1⟩, ⟨4, 1⟩, ⟨5, 1⟩, ⟨6, 1⟩]⟩

theorem euclidean_distance_comm (p q : Pt) :
    euclidean_distance p q = euclidean_distance q p := by
  unfold euclidean_distance dist_sq
  ring_nf

theorem getD_mem {l : List Pt} {n : ℕ} (h : n < l.length) (d : Pt) :
    l.getD n d ∈ l := by
  rw [List.getD_eq_getElem _ _ h]
  exact List.getElem_mem h

theorem closestPointOnPolyline_isSome (p : Pt) :
    ∀ (l : List Pt), l ≠ [] → (closestPointOnPolyline p l).isSome = true := by
  intro l hl
  match l with
  | [a] => simp [closestPointOnPolyline]
  | a :: b :: rest =>
    simp only [closestPointOnPolyline]
    cases h : closestPointOnPolyline p (b :: rest) <;> simp

theorem closestDistance_eq_closestDistOn (p : Pt) {ref : List Pt} (h : ref ≠ []) :
    closestDistance p ref = closestDistOn ref p := by
  have hs := closestPointOnPolyline_isSome p ref h
  cases hc : closestPointOnPolyline p ref with
  | none => rw [hc] at hs; simp at hs
  | some c => simp [closestDistance, closestDistOn, hc]

theorem calculate_average_distance_spec (ref : List Pt) :
    ∀ (cur : List Pt) (d0 : ENNReal) (n0 : ℕ),
      calculate_average_distance cur ref (d0, n0) =
        (d0 + (cur.map (fun p => closestDistance p ref)).sum, n0 + cur.length) := by
  intro cur
  induction cur with
  | nil => intro d0 n0; simp [calculate_average_distance]
  | cons p rest ih =>
    intro d0 n0
    have hstep : calculate_average_distance (p :: rest) ref (d0, n0) =
        calculate_average_distance rest ref (d0 + closestDistance p ref, n0 + 1) := rfl
    rw [hstep, ih]
    simp only [List.map_cons, List.sum_cons, List.length_cons, Prod.mk.injEq]
    constructor
    · rw [add_assoc]
    · omega

theorem join_and_project_eq (segments : List TrackSegment) (pr : Projection) :
    join_and_project_segments segments pr =
      (concatPoints segments).map (fun p => project pr p) := by
  suffices h : ∀ acc : List Pt,
      segments.foldl (fun acc s => acc ++ s.points.map (fun p => project pr p)) acc =
        acc ++ (concatPoints segments).map (fun p => project pr p) by
    simpa [join_and_project_segments] using h []
  induction segments with
  | nil => intro acc; simp [concatPoints]
  | cons s rest ih =>
    intro acc
    simp [concatPoints, ih, List.map_append]

theorem concatPoints_length (segments : List TrackSegment) :
    (concatPoints segments).length = (segments.map (fun s => s.points.length)).sum := by
  induction segments with
  | nil => simp [concatPoints]
  | cons s rest ih => simp [concatPoints, ih]

theorem sum_positions_spec (t : Track) :
    sum_positions t =
      ⟨((concatPoints t.segments).map Pt.x).sum, ((concatPoints t.segments).map Pt.y).sum⟩ := by
  suffices h : ∀ (l : List Pt) (acc : Pt),
      l.foldl (fun acc p => Pt.mk (acc.x + p.x) (acc.y + p.y)) acc =
        ⟨acc.x + (l.map Pt.x).sum, acc.y + (l.map Pt.y).sum⟩ by
    rw [sum_positions, h]
    simp
  intro l
  induction l with
  | nil => intro acc; simp
  | cons p rest ih =>
    intro acc
    simp [ih, add_assoc]

theorem total_points_spec (t : Track) :
    total_points t = ((concatPoints t.segments).length : ℝ) := by
  rw [total_points, concatPoints_length]
  induction t.segments with
  | nil => simp
  | cons s rest ih => simp [ih]

theorem rdpAux_spec (eps : ℝ) :
    ∀ (n : ℕ) (mid : List Pt), mid.length ≤ n → ∀ (a z : Pt),
      ∃ t, rdpAux eps a mid z = a :: t ∧ List.Sublist (a :: t) (a :: mid) := by
  intro n
  induction n with
  | zero =>
    intro mid hm a z
    have hmid : mid = [] := List.eq_nil_of_length_eq_zero (Nat.le_zero.mp hm)
    subst hmid
    exact ⟨[], by rw [rdpAux], List.Sublist.refl _⟩
  | succ n ih =>
    intro mid hm a z
    match mid with
    | [] => exact ⟨[], by rw [rdpAux], List.Sublist.refl _⟩
    | c :: cs =>
      rcases hs : maxSplit a z (c :: cs) (List.cons_ne_nil c cs) with ⟨⟨l, m, r⟩, hp⟩
      have hlen := congrArg List.length hp
      simp only [List.length_append, List.length_cons] at hlen
      simp only [List.length_cons] at hm
      have hl : l.length ≤ n := by omega
      have hr : r.length ≤ n := by omega
      have hunfold : rdpAux eps a (c :: cs) z =
          (if eps < perp_distance m a z then
            rdpAux eps a l m ++ rdpAux eps m r z
          else [a]) := by
        rw [rdpAux, hs]
      by_cases hcond : eps < perp_distance m a z
      · obtain ⟨t1, e1, s1⟩ := ih l hl a m
        obtain ⟨t2, e2, s2⟩ := ih r hr m z
        refine ⟨t1 ++ m :: t2, ?_, ?_⟩
        · rw [hunfold, if_pos hcond, e1, e2]
          simp
        · have happ := List.Sublist.append s1 s2
          rw [List.cons_append, List.cons_append, hp] at happ
          simpa using happ
      · refine ⟨[], ?_, ?_⟩
        · rw [hunfold, if_neg hcond]
        · exact List.cons_sublist_cons.mpr (List.nil_sublist _)

theorem rdpAux_shape (eps : ℝ) (a : Pt) (mid : List Pt) (z : Pt) :
    ∃ t, rdpAux eps a mid z = a :: t ∧ List.Sublist (a :: t) (a :: mid) :=
  rdpAux_spec eps mid.length mid le_rfl a z

theorem rdp_sublist (eps : ℝ) (l : List Pt) : List.Sublist (rdp eps l) l := by
  match l with
  | [] => simp [rdp]
  | [a] => simp [rdp]
  | a :: b :: rest =>
    obtain ⟨t, e, s⟩ :=
      rdpAux_shape eps a ((b :: rest).dropLast) ((b :: rest).getLast (List.cons_ne_nil b rest))
    rw [rdp, e]
    have happ := List.Sublist.append s
      (List.Sublist.refl [(b :: rest).getLast (List.cons_ne_nil b rest)])
    rw [List.cons_append, List.cons_append] at happ
    have hjoin : (b :: rest).dropLast ++ [(b :: rest).getLast (List.cons_ne_nil b rest)] =
        b :: rest := List.dropLast_append_getLast (List.cons_ne_nil b rest)
    rw [hjoin] at happ
    simpa using happ

theorem rdp_head (eps : ℝ) (l : List Pt) : (rdp eps l).head? = l.head? := by
  match l with
  | [] => rfl
  | [a] => rfl
  | a :: b :: rest =>
    obtain ⟨t, e, _⟩ :=
      rdpAux_shape eps a ((b :: rest).dropLast) ((b :: rest).getLast (List.cons_ne_nil b rest))
    rw [rdp, e]
    simp

theorem rdp_getLast (eps : ℝ) (l : List Pt) : (rdp eps l).getLast? = l.getLast? := by
  match l with
  | [] => rfl
  | [a] => rfl
  | a :: b :: rest =>
    rw [rdp, List.getLast?_concat]
    rw [List.getLast?_cons_cons]
    exact (List.getLast?_eq_getLast_of_ne_nil (List.cons_ne_nil b rest)).symm

theorem rdp_length_le (eps : ℝ) (l : List Pt) : (rdp eps l).length ≤ l.length :=
  (rdp_sublist eps l).length_le

theorem rdp_ne_nil (eps : ℝ) {l : List Pt} (h : l ≠ []) : rdp eps l ≠ [] := by
  intro hcon
  have hh := rdp_head eps l
  rw [hcon] at hh
  have := List.head?_eq_none_iff.mp hh.symm
  exact h this

theorem minDistTo_le_of_mem (p : Pt) :
    ∀ (B : List Pt) (q : Pt), q ∈ B → minDistTo p B ≤ euclidean_distance p q := by
  intro B
  induction B with
  | nil => intro q hq; simp at hq
  | cons b B2 ih =>
    intro q hq
    match B2 with
    | [] =>
      have : q = b := by simpa using hq
      subst this
      simp [minDistTo]
    | b2 :: rest =>
      rw [List.mem_cons] at hq
      rcases hq with hq | hq
      · subst hq
        exact min_le_left _ _
      · exact le_trans (min_le_right _ _) (ih q hq)

theorem directed_hausdorff_le {A : List Pt} (B : List Pt) (c : ℝ) (hA : A ≠ [])
    (h : ∀ a ∈ A, minDistTo a B ≤ c) : directed_hausdorff A B ≤ c := by
  induction A with
  | nil => exact absurd rfl hA
  | cons a A2 ih =>
    match A2 with
    | [] => simpa [directed_hausdorff] using h a (by simp)
    | a2 :: rest =>
      apply max_le
      · exact h a (by simp)
      · exact ih (List.cons_ne_nil a2 rest) (fun q hq => h q (List.mem_cons_of_mem a hq))

theorem frechetAux_bound (A B : List Pt) :
    ∀ (s i j : ℕ), i + j ≤ s → i < A.length → j < B.length →
      (∀ i2, i2 ≤ i → minDistTo (A.getD i2 origin) B ≤ frechetAux A B i j) ∧
      (∀ j2, j2 ≤ j → minDistTo (B.getD j2 origin) A ≤ frechetAux A B i j) := by
  intro s
  induction s with
  | zero =>
    intro i j hs hi hj
    have hi0 : i = 0 := by omega
    have hj0 : j = 0 := by omega
    subst hi0; subst hj0
    constructor
    · intro i2 hi2
      have hi2z : i2 = 0 := by omega
      subst hi2z
      rw [frechetAux]
      exact minDistTo_le_of_mem _ B _ (getD_mem hj origin)
    · intro j2 hj2
      have hj2z : j2 = 0 := by omega
      subst hj2z
      rw [frechetAux, euclidean_distance_comm]
      exact minDistTo_le_of_mem _ A _ (getD_mem hi origin)
  | succ n ih =>
    intro i j hs hi hj
    match i, j with
    | 0, 0 =>
      constructor
      · intro i2 hi2
        have hi2z : i2 = 0 := by omega
        subst hi2z
        rw [frechetAux]
        exact minDistTo_le_of_mem _ B _ (getD_mem hj origin)
      · intro j2 hj2
        have hj2z : j2 = 0 := by omega
        subst hj2z
        rw [frechetAux, euclidean_distance_comm]
        exact minDistTo_le_of_mem _ A _ (getD_mem hi origin)
    | i + 1, 0 =>
      have hi' : i < A.length := by omega
      obtain ⟨P1, P2⟩ := ih i 0 (by omega) hi' hj
      constructor
      · intro i2 hi2
        rw [frechetAux]
        rcases Nat.lt_or_ge i2 (i + 1) with hlt | hge
        · exact le_trans (P1 i2 (by omega)) (le_max_right _ _)
        · have : i2 = i + 1 := by omega
          subst this
          exact le_trans (minDistTo_le_of_mem _ B _ (getD_mem hj origin)) (le_max_left _ _)
      · intro j2 hj2
        have hj2z : j2 = 0 := by omega
        subst hj2z
        rw [frechetAux]
        refine le_trans ?_ (le_max_left _ _)
        rw [euclidean_distance_comm]
        exact minDistTo_le_of_mem _ A _ (getD_mem hi origin)
    | 0, j + 1 =>
      have hj' : j < B.length := by omega
      obtain ⟨P1, P2⟩ := ih 0 j (by omega) hi hj'
      constructor
      · intro i2 hi2
        have hi2z : i2 = 0 := by omega
        subst hi2z
        rw [frechetAux]
        refine le_trans ?_ (le_max_left _ _)
        exact minDistTo_le_of_mem _ B _ (getD_mem hj origin)
      · intro j2 hj2
        rw [frechetAux]
        rcases Nat.lt_or_ge j2 (j + 1) with hlt | hge
        · exact le_trans (P2 j2 (by omega)) (le_max_right _ _)
        · have : j2 = j + 1 := by omega
          subst this
          refine le_trans ?_ (le_max_left _ _)
          rw [euclidean_distance_comm]
          exact minDistTo_le_of_mem _ A _ (getD_mem hi origin)
    | i + 1, j + 1 =>
      have hi' : i < A.length := by omega
      have hj' : j < B.length := by omega
      obtain ⟨Q1, Q2⟩ := ih i (j + 1) (by omega) hi' hj
      obtain ⟨R1, R2⟩ := ih (i + 1) j (by omega) hi hj'
      obtain ⟨S1, S2⟩ := ih i j (by omega) hi' hj'
      constructor
      · intro i2 hi2
        rw [frechetAux]
        rcases Nat.lt_or_ge i2 (i + 1) with hlt | hge
        · refine le_trans ?_ (le_max_right _ _)
          exact le_min (Q1 i2 (by omega)) (le_min (R1 i2 (by omega)) (S1 i2 (by omega)))
        · have : i2 = i + 1 := by omega
          subst this
          exact le_trans (minDistTo_le_of_mem _ B _ (getD_mem hj origin)) (le_max_left _ _)
      · intro j2 hj2
        rw [frechetAux]
        rcases Nat.lt_or_ge j2 (j + 1) with hlt | hge
        · refine le_trans ?_ (le_max_right _ _)
          exact le_min (Q2 j2 (by omega)) (le_min (R2 j2 (by omega)) (S2 j2 (by omega)))
        · have : j2 = j + 1 := by omega
          subst this
          refine le_trans ?_ (le_max_left _ _)
          rw [euclidean_distance_comm]
          exact minDistTo_le_of_mem _ A _ (getD_mem hi origin)

theorem sum_map_top {l : List Pt} (h : l ≠ []) (f : Pt → ENNReal) (hf : ∀ p, f p = ⊤) :
    (l.map f).sum = ⊤ := by
  match l with
  | p :: rest => simp [hf]

theorem f64_div_of_ne_zero {n : ℕ} (hn : n ≠ 0) (total : ENNReal) :
    f64_div total n = some (total / (n : ENNReal)) := by
  simp [f64_div, hn]

theorem processTrack_average (referenceTrack track : Track) (eps : ℝ) (idx : ℕ) :
    (processTrack referenceTrack eps idx track).average_distance_m =
      (f64_div
        ((joinedCurrent referenceTrack track).map
          (fun p => closestDistance p (joinedReference referenceTrack))).sum
        (joinedCurrent referenceTrack track).length).map (fun d => d * 1000) := by
  simp only [processTrack, joinedCurrent, joinedReference]
  rw [calculate_average_distance_spec]
  simp

theorem processTrack_simplified_average (referenceTrack track : Track) (eps : ℝ) (idx : ℕ) :
    (processTrack referenceTrack eps idx track).simplified_average_distance_m =
      (f64_div
        (((rdp (eps / 1000) (joinedCurrent referenceTrack track)).map
          (fun p => closestDistance p (joinedReference referenceTrack))).sum)
        ((rdp (eps / 1000) (joinedCurrent referenceTrack track)).length)).map
          (fun d => d * 1000) := by
  simp only [processTrack, joinedCurrent, joinedReference]
  rw [calculate_average_distance_spec]
  simp

theorem processTrack_current_length (referenceTrack track : Track) (eps : ℝ) (idx : ℕ) :
    (processTrack referenceTrack eps idx track).current_track_length_m =
      calculate_total_length (joinedCurrent referenceTrack track) * 1000 := rfl

theorem processTrack_reference_length (referenceTrack track : Track) (eps : ℝ) (idx : ℕ) :
    (processTrack referenceTrack eps idx track).reference_track_length_m =
      calculate_total_length (joinedReference referenceTrack) * 1000 := rfl

theorem processTrack_frechet (referenceTrack track : Track) (eps : ℝ) (idx : ℕ) :
    (processTrack referenceTrack eps idx track).frechet_distance_m =
      frechet_distance (joinedCurrent referenceTrack track) (joinedReference referenceTrack) *
        1000 := rfl

theorem processTrack_hausdorff (referenceTrack track : Track) (eps : ℝ) (idx : ℕ) :
    (processTrack referenceTrack eps idx track).hausdorff_distance_m =
      hausdorff_distance (joinedCurrent referenceTrack track) (joinedReference referenceTrack) *
        1000 := rfl

/-- C1: the reported average_distance_m is the arithmetic mean, over the
vertices of the joined candidate polyline, of the Euclidean distance from each
vertex to its closest point on the joined reference polyline (scaled from the
kilometer frame to meters), and simplified_average_distance_m is the same mean
over the vertices of the RDP-simplified candidate polyline, measured against
the same un-simplified joined reference polyline. -/
theorem average_distance_is_mean_of_closest_distances
    (referenceTrack track : Track) (eps : ℝ) (idx : ℕ)
    (hq : joinedCurrent referenceTrack track ≠ [])
    (hr : joinedReference referenceTrack ≠ []) :
    (processTrack referenceTrack eps idx track).average_distance_m =
      some (meanClosestDistance (joinedCurrent referenceTrack track)
        (joinedReference referenceTrack) * 1000) ∧
    (processTrack referenceTrack eps idx track).simplified_average_distance_m =
      some (meanClosestDistance (rdp (eps / 1000) (joinedCurrent referenceTrack track))
        (joinedReference referenceTrack) * 1000) := by
  have hmap : ∀ q : List Pt,
      q.map (fun p => closestDistance p (joinedReference referenceTrack)) =
        q.map (closestDistOn (joinedReference referenceTrack)) := by
    intro q
    exact List.map_congr_left (fun p _ => closestDistance_eq_closestDistOn p hr)
  constructor
  · rw [processTrack_average,
      f64_div_of_ne_zero (by simpa using hq), hmap]
    simp [meanClosestDistance]
  · have hq2 : rdp (eps / 1000) (joinedCurrent referenceTrack track) ≠ [] :=
      rdp_ne_nil (eps / 1000) hq
    rw [processTrack_simplified_average,
      f64_div_of_ne_zero (by simpa using hq2), hmap]
    simp [meanClosestDistance]

/-- C2: when the reference polyline is empty, the per-point closest-point
distance is infinite, and the infinite distance propagates into the
candidate's reported average metrics instead of being coerced to zero. -/
theorem empty_reference_infinite_distance_propagates
    (referenceTrack track : Track) (eps : ℝ) (idx : ℕ)
    (hr : joinedReference referenceTrack = [])
    (hq : joinedCurrent referenceTrack track ≠ []) :
    (∀ p : Pt, closestDistance p (joinedReference referenceTrack) = ⊤) ∧
    (processTrack referenceTrack eps idx track).average_distance_m = some ⊤ ∧
    (processTrack referenceTrack eps idx track).simplified_average_distance_m = some ⊤ := by
  have htop : ∀ p : Pt, closestDistance p (joinedReference referenceTrack) = ⊤ := by
    intro p
    rw [hr]
    rfl
  refine ⟨htop, ?_, ?_⟩
  · rw [processTrack_average, sum_map_top hq _ htop,
      f64_div_of_ne_zero (by simpa using hq)]
    rw [ENNReal.top_div_of_ne_top (ENNReal.natCast_ne_top _)]
    simp [ENNReal.top_mul]
  · have hq2 : rdp (eps / 1000) (joinedCurrent referenceTrack track) ≠ [] :=
      rdp_ne_nil (eps / 1000) hq
    rw [processTrack_simplified_average, sum_map_top hq2 _ htop,
      f64_div_of_ne_zero (by simpa using hq2)]
    rw [ENNReal.top_div_of_ne_top (ENNReal.natCast_ne_top _)]
    simp [ENNReal.top_mul]

/-- C3 counterexample: a candidate whose only track has no points is NOT
turned into an error by the run: the orchestrator completes successfully and
emits one result record for it, whose average is the NaN of 0/0 (modelled as
none), so the average-distance computation of an empty query polyline is not
surfaced as an error. -/
theorem empty_query_counterexample :
    (runMain grefW [gcandEmptyW] 1).toOption.map
      (fun rs => rs.map (fun r => r.average_distance_m)) = some [none] := by
  have h : runMain grefW [gcandEmptyW] 1 = Except.ok [processTrack refW 1 0 trEmptyW] := by
    simp [runMain, resolveReference, grefW, gcandEmptyW]
  have hjc : joinedCurrent refW trEmptyW = [] := by
    simp [joinedCurrent, trEmptyW, join_and_project_segments]
  have h2 : (processTrack refW 1 0 trEmptyW).average_distance_m = none := by
    rw [processTrack_average, hjc]
    simp [f64_div]
  rw [h]
  simp [Except.toOption, h2]

/-- C3 amended: for a candidate whose joined query polyline is empty, the
average-distance computation produces the NaN of 0/0 (modelled as none) for
both average fields -- not zero and not any numeric value -- but no error is
raised and a result record is still emitted. -/
theorem empty_query_yields_nan_not_error
    (referenceTrack track : Track) (eps : ℝ) (idx : ℕ)
    (hq : joinedCurrent referenceTrack track = []) :
    (processTrack referenceTrack eps idx track).average_distance_m = none ∧
    (processTrack referenceTrack eps idx track).simplified_average_distance_m = none := by
  constructor
  · rw [processTrack_average, hq]
    simp [f64_div]
  · rw [processTrack_simplified_average, hq]
    simp [rdp, f64_div]

/-- C4: for every polyline and every epsilon greater or equal zero, the RDP
simplification returns a subsequence of the polyline's vertices that keeps the
first and last vertices and whose vertex count does not exceed the input's. -/
theorem simplify_subsequence_endpoints_count (eps : ℝ) (l : List Pt) (_heps : 0 ≤ eps) :
    List.Sublist (rdp eps l) l ∧ (rdp eps l).head? = l.head? ∧
    (rdp eps l).getLast? = l.getLast? ∧ (rdp eps l).length ≤ l.length :=
  ⟨rdp_sublist eps l, rdp_head eps l, rdp_getLast eps l, rdp_length_le eps l⟩

/-- C5: for any two nonempty polylines, the discrete Hausdorff distance is at
most the discrete Frechet distance. -/
theorem hausdorff_le_frechet (A B : List Pt) (hA : A ≠ []) (hB : B ≠ []) :
    hausdorff_distance A B ≤ frechet_distance A B := by
  have hAl : 0 < A.length := List.length_pos.mpr hA
  have hBl : 0 < B.length := List.length_pos.mpr hB
  obtain ⟨P1, P2⟩ := frechetAux_bound A B (A.length - 1 + (B.length - 1))
    (A.length - 1) (B.length - 1) le_rfl (by omega) (by omega)
  rw [hausdorff_distance, frechet_distance]
  apply max_le
  · apply directed_hausdorff_le _ _ hA
    intro a ha
    obtain ⟨i, hilen, hie⟩ := List.mem_iff_getElem.mp ha
    have hP := P1 i (by omega)
    rw [List.getD_eq_getElem _ _ hilen, hie] at hP
    exact hP
  · apply directed_hausdorff_le _ _ hB
    intro b hb
    obtain ⟨j, hjlen, hje⟩ := List.mem_iff_getElem.mp hb
    have hP := P2 j (by omega)
    rw [List.getD_eq_getElem _ _ hjlen, hje] at hP
    exact hP

/-- C6: the projection of a comparison run is anchored at the centroid of the
reference track (the arithmetic mean of the coordinates of all points of all
its segments), its value is determined by the reference track alone, and every
planar quantity of a candidate's result record (lengths, Frechet and Hausdorff
distances) is computed over polylines projected with that same projection. -/
theorem single_centroid_projection_used_everywhere
    (referenceTrack track : Track) (eps : ℝ) (idx : ℕ) :
    (projectorOf referenceTrack).lon0 =
      ((concatPoints referenceTrack.segments).map Pt.x).sum /
        ((concatPoints referenceTrack.segments).length : ℝ) ∧
    (projectorOf referenceTrack).lat0 =
      ((concatPoints referenceTrack.segments).map Pt.y).sum /
        ((concatPoints referenceTrack.segments).length : ℝ) ∧
    joinedCurrent referenceTrack track =
      (concatPoints track.segments).map (fun p => project (projectorOf referenceTrack) p) ∧
    joinedReference referenceTrack =
      (concatPoints referenceTrack.segments).map
        (fun p => project (projectorOf referenceTrack) p) ∧
    (processTrack referenceTrack eps idx track).current_track_length_m =
      calculate_total_length
        ((concatPoints track.segments).map (fun p => project (projectorOf referenceTrack) p)) *
        1000 ∧
    (processTrack referenceTrack eps idx track).reference_track_length_m =
      calculate_total_length
        ((concatPoints referenceTrack.segments).map
          (fun p => project (projectorOf referenceTrack) p)) * 1000 ∧
    (processTrack referenceTrack eps idx track).frechet_distance_m =
      frechet_distance
        ((concatPoints track.segments).map (fun p => project (projectorOf referenceTrack) p))
        ((concatPoints referenceTrack.segments).map
          (fun p => project (projectorOf referenceTrack) p)) * 1000 ∧
    (processTrack referenceTrack eps idx track).hausdorff_distance_m =
      hausdorff_distance
        ((concatPoints track.segments).map (fun p => project (projectorOf referenceTrack) p))
        ((concatPoints referenceTrack.segments).map
          (fun p => project (projectorOf referenceTrack) p)) * 1000 := by
  have hjc : joinedCurrent referenceTrack track =
      (concatPoints track.segments).map (fun p => project (projectorOf referenceTrack) p) :=
    join_and_project_eq track.segments (projectorOf referenceTrack)
  have hjr : joinedReference referenceTrack =
      (concatPoints referenceTrack.segments).map
        (fun p => project (projectorOf referenceTrack) p) :=
    join_and_project_eq referenceTrack.segments (projectorOf referenceTrack)
  refine ⟨?_, ?_, hjc, hjr, ?_, ?_, ?_, ?_⟩
  · rw [projectorOf]
    simp only [average_position]
    rw [sum_positions_spec, total_points_spec]
  · rw [projectorOf]
    simp only [average_position]
    rw [sum_positions_spec, total_points_spec]
  · rw [processTrack_current_length, hjc]
  · rw [processTrack_reference_length, hjr]
  · rw [processTrack_frechet, hjc, hjr]
  · rw [processTrack_hausdorff, hjc, hjr]

/-- C7: joining projects every point of every segment in original order and
concatenates the segments into one polyline without deduplication, reordering
or synthetic points; a track with no points yields the empty polyline, and
segments of 5 and 7 points join into a 12-point polyline. -/
theorem join_projects_all_points_in_order (pr : Projection) (segments : List TrackSegment) :
    join_and_project_segments segments pr =
      (concatPoints segments).map (fun p => project pr p) ∧
    (join_and_project_segments segments pr).length =
      (segments.map (fun s => s.points.length)).sum ∧
    join_and_project_segments [] pr = [] ∧
    (∀ s1 s2 : TrackSegment, s1.points.length = 5 → s2.points.length = 7 →
      (join_and_project_segments [s1, s2] pr).length = 12) := by
  refine ⟨join_and_project_eq segments pr, ?_, rfl, ?_⟩
  · rw [join_and_project_eq, List.length_map, concatPoints_length]
  · intro s1 s2 h5 h7
    rw [join_and_project_eq, List.length_map, concatPoints_length]
    simp [h5, h7]

/-- C8: reference-track resolution prefers the first track of the reference
file; with no tracks but waypoints it synthesizes a single-segment track
holding all waypoints in file order; with neither, the run aborts with
EmptyReference (the nonzero exit) before producing any per-track output. -/
theorem reference_resolution_order (g : Gpx) :
    (∀ t ts, g.tracks = t :: ts → resolveReference g = Except.ok t) ∧
    (g.tracks = [] → ∀ w ws, g.waypoints = w :: ws →
      resolveReference g = Except.ok { name := none, segments := [{ points := w :: ws }] }) ∧
    (g.tracks = [] → g.waypoints = [] →
      resolveReference g = Except.error RunError.EmptyReference ∧
      ∀ (gpxs : List Gpx) (eps : ℝ),
        runMain g gpxs eps = Except.error RunError.EmptyReference) := by
  obtain ⟨tracks, waypoints⟩ := g
  refine ⟨?_, ?_, ?_⟩
  · intro t ts h
    simp only at h
    subst h
    rfl
  · intro h w ws h2
    simp only at h h2
    subst h
    subst h2
    rfl
  · intro h h2
    simp only at h h2
    subst h
    subst h2
    exact ⟨rfl, fun gpxs eps => rfl⟩

/-- C9: for any geodetic point, projecting and unprojecting through a
projection whose longitude scale factor is nonzero (the anchor is inside the
projection's valid range, away from the poles) returns the point exactly, and
in particular within a 1e-6 degree tolerance in each coordinate. -/
theorem projection_roundtrip (pr : Projection) (p : Pt) (h : kx pr ≠ 0) :
    unproject pr (project pr p) = p ∧
    |(unproject pr (project pr p)).x - p.x| ≤ 1 / 1000000 ∧
    |(unproject pr (project pr p)).y - p.y| ≤ 1 / 1000000 := by
  have hky : ky pr ≠ 0 := by
    unfold ky kmPerDegree
    norm_num
  have heq : unproject pr (project pr p) = p := by
    have hx : (p.x - pr.lon0) * kx pr / kx pr + pr.lon0 = p.x := by
      rw [mul_div_assoc, div_self h]
      ring
    have hy : (p.y - pr.lat0) * ky pr / ky pr + pr.lat0 = p.y := by
      rw [mul_div_assoc, div_self hky]
      ring
    simp only [unproject, project]
    rw [hx, hy]
  refine ⟨heq, ?_, ?_⟩ <;> rw [heq] <;> simp

/-- C10: the planar frame is scaled in kilometers and the unit conversion sits
at the boundary: the tolerance handed to the simplifier is
simplify_epsilon / 1000 and every reported field is the planar kilometer value
multiplied by 1000. -/
theorem km_to_m_unit_conversion (referenceTrack track : Track) (eps : ℝ) (idx : ℕ) :
    (processTrack referenceTrack eps idx track).current_track_length_m =
      calculate_total_length (joinedCurrent referenceTrack track) * 1000 ∧
    (processTrack referenceTrack eps idx track).reference_track_length_m =
      calculate_total_length (joinedReference referenceTrack) * 1000 ∧
    (processTrack referenceTrack eps idx track).frechet_distance_m =
      frechet_distance (joinedCurrent referenceTrack track)
        (joinedReference referenceTrack) * 1000 ∧
    (processTrack referenceTrack eps idx track).hausdorff_distance_m =
      hausdorff_distance (joinedCurrent referenceTrack track)
        (joinedReference referenceTrack) * 1000 ∧
    (processTrack referenceTrack eps idx track).average_distance_m =
      (f64_div
        ((joinedCurrent referenceTrack track).map
          (fun p => closestDistance p (joinedReference referenceTrack))).sum
        (joinedCurrent referenceTrack track).length).map (fun d => d * 1000) ∧
    (processTrack referenceTrack eps idx track).simplified_average_distance_m =
      (f64_div
        (((rdp (eps / 1000) (joinedCurrent referenceTrack track)).map
          (fun p => closestDistance p (joinedReference referenceTrack))).sum)
        ((rdp (eps / 1000) (joinedCurrent referenceTrack track)).length)).map
          (fun d => d * 1000) :=
  ⟨processTrack_current_length referenceTrack track eps idx,
   processTrack_reference_length referenceTrack track eps idx,
   processTrack_frechet referenceTrack track eps idx,
   processTrack_hausdorff referenceTrack track eps idx,
   processTrack_average referenceTrack track eps idx,
   processTrack_simplified_average referenceTrack track eps idx⟩

/-- Witness for C1 at a concrete two-point reference and one-point candidate. -/
theorem average_distance_is_mean_witness :
    (joinedCurrent refW trW ≠ [] ∧ joinedReference refW ≠ []) ∧
    ((processTrack refW 1 0 trW).average_distance_m =
      some (meanClosestDistance (joinedCurrent refW trW) (joinedReference refW) * 1000) ∧
     (processTrack refW 1 0 trW).simplified_average_distance_m =
      some (meanClosestDistance (rdp (1 / 1000) (joinedCurrent refW trW))
        (joinedReference refW) * 1000)) := by
  have hq : joinedCurrent refW trW ≠ [] := by
    simp [joinedCurrent, join_and_project_segments, trW]
  have hr : joinedReference refW ≠ [] := by
    simp [joinedReference, join_and_project_segments, refW]
  exact ⟨⟨hq, hr⟩, average_distance_is_mean_of_closest_distances refW trW 1 0 hq hr⟩

/-- Witness for C2 at a reference track with no points and a one-point
candidate. -/
theorem empty_reference_infinite_witness :
    (joinedReference refEmptyW = [] ∧ joinedCurrent refEmptyW trW ≠ []) ∧
    ((∀ p : Pt, closestDistance p (joinedReference refEmptyW) = ⊤) ∧
     (processTrack refEmptyW 1 0 trW).average_distance_m = some ⊤ ∧
     (processTrack refEmptyW 1 0 trW).simplified_average_distance_m = some ⊤) := by
  have hr : joinedReference refEmptyW = [] := rfl
  have hq : joinedCurrent refEmptyW trW ≠ [] := by
    simp [joinedCurrent, join_and_project_segments, trW]
  exact ⟨⟨hr, hq⟩, empty_reference_infinite_distance_propagates refEmptyW trW 1 0 hr hq⟩

/-- Witness for the amended C3 at a candidate track with no points. -/
theorem empty_query_nan_witness :
    joinedCurrent refW trEmptyW = [] ∧
    ((processTrack refW 1 0 trEmptyW).average_distance_m = none ∧
     (processTrack refW 1 0 trEmptyW).simplified_average_distance_m = none) := by
  have hq : joinedCurrent refW trEmptyW = [] := rfl
  exact ⟨hq, empty_query_yields_nan_not_error refW trEmptyW 1 0 hq⟩

/-- Witness for C4 at a concrete three-point polyline and epsilon 1. -/
theorem simplify_subsequence_witness :
    (0 : ℝ) ≤ 1 ∧
    (List.Sublist (rdp 1 [origin, Pt.mk 1 0, Pt.mk 2 0]) [origin, Pt.mk 1 0, Pt.mk 2 0] ∧
     (rdp 1 [origin, Pt.mk 1 0, Pt.mk 2 0]).head? = [origin, Pt.mk 1 0, Pt.mk 2 0].head? ∧
     (rdp 1 [origin, Pt.mk 1 0, Pt.mk 2 0]).getLast? =
       ([origin, Pt.mk 1 0, Pt.mk 2 0] : List Pt).getLast? ∧
     (rdp 1 [origin, Pt.mk 1 0, Pt.mk 2 0]).length ≤
       ([origin, Pt.mk 1 0, Pt.mk 2 0] : List Pt).length) :=
  ⟨by norm_num,
   simplify_subsequence_endpoints_count 1 [origin, Pt.mk 1 0, Pt.mk 2 0] (by norm_num)⟩

/-- Witness for C5 at two concrete one-point polylines. -/
theorem hausdorff_le_frechet_witness :
    (([origin] : List Pt) ≠ [] ∧ ([Pt.mk 1 1] : List Pt) ≠ []) ∧
    hausdorff_distance [origin] [Pt.mk 1 1] ≤ frechet_distance [origin] [Pt.mk 1 1] :=
  ⟨⟨by simp, by simp⟩, hausdorff_le_frechet [origin] [Pt.mk 1 1] (by simp) (by simp)⟩

/-- Witness for C7 at concrete segments of five and seven points. -/
theorem join_five_seven_witness :
    (s5W.points.length = 5 ∧ s7W.points.length = 7) ∧
    (join_and_project_segments [s5W, s7W] (Projection.mk 0 0)).length = 12 := by
  have h5 : s5W.points.length = 5 := rfl
  have h7 : s7W.points.length = 7 := rfl
  exact ⟨⟨h5, h7⟩,
    (join_projects_all_points_in_order (Projection.mk 0 0) [s5W, s7W]).2.2.2 s5W s7W h5 h7⟩

/-- Witness for C8 at concrete GPX inputs for each of the three resolution
cases. -/
theorem reference_resolution_witness :
    (grefW.tracks = refW :: [] ∧ gwayW.tracks = [] ∧ gwayW.waypoints = Pt.mk 3 4 :: [] ∧
     gemptyW.tracks = [] ∧ gemptyW.waypoints = []) ∧
    (resolveReference grefW = Except.ok refW ∧
     resolveReference gwayW =
       Except.ok { name := none, segments := [{ points := [Pt.mk 3 4] }] } ∧
     runMain gemptyW [] 1 = Except.error RunError.EmptyReference) := by
  refine ⟨⟨rfl, rfl, rfl, rfl, rfl⟩, ?_, ?_, ?_⟩
  · exact (reference_resolution_order grefW).1 refW [] rfl
  · exact (reference_resolution_order gwayW).2.1 rfl (Pt.mk 3 4) [] rfl
  · exact ((reference_resolution_order gemptyW).2.2 rfl rfl).2 [] 1

/-- Witness for C9 at the equatorial anchor and a concrete point. -/
theorem projection_roundtrip_witness :
    kx (Projection.mk 0 0) ≠ 0 ∧
    (unproject (Projection.mk 0 0) (project (Projection.mk 0 0) (Pt.mk 1 2)) = Pt.mk 1 2 ∧
     |(unproject (Projection.mk 0 0) (project (Projection.mk 0 0) (Pt.mk 1 2))).x -
       (Pt.mk 1 2).x| ≤ 1 / 1000000 ∧
     |(unproject (Projection.mk 0 0) (project (Projection.mk 0 0) (Pt.mk 1 2))).y -
       (Pt.mk 1 2).y| ≤ 1 / 1000000) := by
  have h : kx (Projection.mk 0 0) ≠ 0 := by
    unfold kx kmPerDegree
    norm_num [Real.cos_zero]
  exact ⟨h, projection_roundtrip (Projection.mk 0 0) (Pt.mk 1 2) h⟩

end GPS
